import Mathlib

/-!
Verification of the scaffold-building script `estrutura.py`.

The script walks a hardcoded nested mapping (`estrutura_projeto`) and materializes it on
disk: a mapping value becomes a directory (`os.makedirs(..., exist_ok=True)` followed by a
recursive call), a string value becomes a file written with `open(caminho, "w")`.

The embedding below models the filesystem as an association list from paths (segment lists
relative to the working directory) to entries, with later bindings shadowing earlier ones.
-/

set_option autoImplicit false

namespace EstruturaPy

/-- A filesystem path: the list of name segments below the process working directory.
`os.path.join base nome` is modelled as `base ++ [nome]`; the base path `"./"` is `[]`. -/
abbrev Path := List String

/-- A filesystem entry: a directory, or a regular file with its text content. -/
inductive Entry where
  | dir : Entry
  | file (conteudo : String) : Entry
deriving DecidableEq

/-- The filesystem state: an association list from paths to entries. Later bindings shadow
earlier ones; the working directory (the empty path) is implicitly always a directory. -/
abbrev FS := List (Path × Entry)

/-- Look a path up in the filesystem. -/
def FS.lookup (fs : FS) (p : Path) : Option Entry :=
  match fs with
  | [] => none
  | (q, e) :: resto => if q = p then some e else FS.lookup resto p

/-- Bind a path to an entry, shadowing any earlier binding. -/
def FS.set (fs : FS) (p : Path) (e : Entry) : FS := (p, e) :: fs

/-- Whether `p` is a directory of `fs`; the working directory always is one. -/
def FS.isDir (fs : FS) (p : Path) : Bool :=
  p.isEmpty || decide (FS.lookup fs p = some Entry.dir)

/-- One stretch of `os.makedirs` along a path: `done` is the already-ensured prefix of the
target, and each remaining segment is ensured in turn — created when absent, accepted when
already a directory, and an error when it already exists as a file. -/
def mkdirsAux (fs : FS) (done : Path) : List String → Except Unit FS
  | [] => Except.ok fs
  | seg :: resto =>
    match FS.lookup fs (done ++ [seg]) with
    | some (Entry.file _) => Except.error ()
    | some Entry.dir => mkdirsAux fs (done ++ [seg]) resto
    | none => mkdirsAux (FS.set fs (done ++ [seg]) Entry.dir) (done ++ [seg]) resto

/-- `os.makedirs(caminho, exist_ok=True)`: ensure every nonempty prefix of `caminho` is a
directory, creating the missing ones; an existing directory is a no-op (`exist_ok=True`),
an existing file anywhere along the chain is an error. -/
def mkdirs (fs : FS) (caminho : Path) : Except Unit FS := mkdirsAux fs [] caminho

/-- The file branch `open(caminho, "w")` + `arquivo.write(conteudo)`: an error when the path
is empty, is an existing directory, or its parent is not an existing directory; otherwise the
file is created or truncated and the content written. It never creates directories. -/
def writeFile (fs : FS) (caminho : Path) (conteudo : String) : Except Unit FS :=
  if caminho = [] then Except.error ()
  else if FS.lookup fs caminho = some Entry.dir then Except.error ()
  else if FS.isDir fs caminho.dropLast then Except.ok (FS.set fs caminho (Entry.file conteudo))
  else Except.error ()

/-- A tree description: the entries of one mapping level, in insertion order. A string value
is a File node (`consFile`); a mapping value is a Directory node with its children
(`consDir`). This is the tagged form of the `isinstance(conteudo, dict)` discrimination. -/
inductive Estrutura where
  | nil : Estrutura
  | consFile (nome : String) (conteudo : String) (resto : Estrutura) : Estrutura
  | consDir (nome : String) (filhos : Estrutura) (resto : Estrutura) : Estrutura
deriving DecidableEq

/-- `criar_estrutura(base_path, estrutura)`: walk the mapping in order; a mapping value is
realized with `os.makedirs(caminho, exist_ok=True)` followed by the recursive call, a string
value with a truncating file write. The first failing call raises, aborting the whole walk;
the error payload is the filesystem state reached at that point (no rollback). -/
def criar_estrutura (base : Path) : Estrutura → FS → Except FS FS
  | Estrutura.nil, fs => Except.ok fs
  | Estrutura.consFile nome conteudo resto, fs =>
    match writeFile fs (base ++ [nome]) conteudo with
    | Except.error _ => Except.error fs
    | Except.ok fs1 => criar_estrutura base resto fs1
  | Estrutura.consDir nome filhos resto, fs =>
    match mkdirs fs (base ++ [nome]) with
    | Except.error _ => Except.error fs
    | Except.ok fs1 =>
      match criar_estrutura (base ++ [nome]) filhos fs1 with
      | Except.error fs2 => Except.error fs2
      | Except.ok fs2 => criar_estrutura base resto fs2

/-- The sibling names of one mapping level. -/
def nomes : Estrutura → List String
  | Estrutura.nil => []
  | Estrutura.consFile nome _ resto => nome :: nomes resto
  | Estrutura.consDir nome _ resto => nome :: nomes resto

/-- Well-formedness of a tree description: sibling names are distinct at every level. This is
the invariant every Python `dict` literal satisfies by construction (keys are unique). -/
def wf : Estrutura → Bool
  | Estrutura.nil => true
  | Estrutura.consFile nome _ resto => decide (nome ∉ nomes resto) && wf resto
  | Estrutura.consDir nome filhos resto => decide (nome ∉ nomes resto) && (wf filhos && wf resto)

/-- All File nodes of the tree, each with its joined target path and its content. -/
def fileTargets (base : Path) : Estrutura → List (Path × String)
  | Estrutura.nil => []
  | Estrutura.consFile nome conteudo resto =>
    (base ++ [nome], conteudo) :: fileTargets base resto
  | Estrutura.consDir nome filhos resto =>
    fileTargets (base ++ [nome]) filhos ++ fileTargets base resto

/-- The tree is fully materialized under `base` in `fs`: every Directory node is an existing
directory at its joined path, and every File node an existing file there with exactly the
node's content. -/
def Realized (fs : FS) (base : Path) : Estrutura → Prop
  | Estrutura.nil => True
  | Estrutura.consFile nome conteudo resto =>
    FS.lookup fs (base ++ [nome]) = some (Entry.file conteudo) ∧ Realized fs base resto
  | Estrutura.consDir nome filhos resto =>
    FS.lookup fs (base ++ [nome]) = some Entry.dir ∧
      Realized fs (base ++ [nome]) filhos ∧ Realized fs base resto

/-- The ancestral directories each step of the walk relies on are present: for a File node,
the parent of its target; for a Directory node, its whole nonempty chain of path segments. -/
def ChainOk (fs : FS) (base : Path) : Estrutura → Prop
  | Estrutura.nil => True
  | Estrutura.consFile _ _ resto => FS.isDir fs base = true ∧ ChainOk fs base resto
  | Estrutura.consDir nome filhos resto =>
    (∀ q : Path, q ≠ [] → q <+: base ++ [nome] → FS.lookup fs q = some Entry.dir) ∧
      ChainOk fs (base ++ [nome]) filhos ∧ ChainOk fs base resto

/-- One primitive filesystem operation of the walk. -/
inductive Op where
  | mkdirOp (caminho : Path) : Op
  | writeOp (caminho : Path) (conteudo : String) : Op
deriving DecidableEq

/-- Apply one primitive operation to the filesystem. -/
def applyOp (fs : FS) : Op → Except Unit FS
  | Op.mkdirOp caminho => mkdirs fs caminho
  | Op.writeOp caminho conteudo => writeFile fs caminho conteudo

/-- The operations the walk performs, in traversal order: each Directory node contributes its
`mkdirs` followed by all operations of its children, then the later siblings follow. -/
def plan (base : Path) : Estrutura → List Op
  | Estrutura.nil => []
  | Estrutura.consFile nome conteudo resto =>
    Op.writeOp (base ++ [nome]) conteudo :: plan base resto
  | Estrutura.consDir nome filhos resto =>
    Op.mkdirOp (base ++ [nome]) :: (plan (base ++ [nome]) filhos ++ plan base resto)

/-- Run a list of primitive operations in order; the first failure aborts the run and returns
the state reached so far. -/
def runOps (fs : FS) : List Op → Except FS FS
  | [] => Except.ok fs
  | op :: resto =>
    match applyOp fs op with
    | Except.error _ => Except.error fs
    | Except.ok fs1 => runOps fs1 resto

/-- The number of nodes of a tree description. -/
def sizeE : Estrutura → Nat
  | Estrutura.nil => 0
  | Estrutura.consFile _ _ resto => 1 + sizeE resto
  | Estrutura.consDir _ filhos resto => 1 + sizeE filhos + sizeE resto

/-- The walk with an explicit step budget: each recursive call consumes one unit of fuel, and
`none` reports fuel exhaustion. Used to state termination of `criar_estrutura`. -/
def criarFuel : Nat → Path → Estrutura → FS → Option (Except FS FS)
  | 0, _, _, _ => none
  | Nat.succ n, base, est, fs =>
    match est with
    | Estrutura.nil => some (Except.ok fs)
    | Estrutura.consFile nome conteudo resto =>
      match writeFile fs (base ++ [nome]) conteudo with
      | Except.error _ => some (Except.error fs)
      | Except.ok fs1 => criarFuel n base resto fs1
    | Estrutura.consDir nome filhos resto =>
      match mkdirs fs (base ++ [nome]) with
      | Except.error _ => some (Except.error fs)
      | Except.ok fs1 =>
        match criarFuel n (base ++ [nome]) filhos fs1 with
        | none => none
        | some (Except.error fs2) => some (Except.error fs2)
        | some (Except.ok fs2) => criarFuel n base resto fs2

/-- The hardcoded project tree of the script, in the source's insertion order. -/
def estrutura_projeto : Estrutura :=
  Estrutura.consFile "package.json" ""
  (Estrutura.consFile "server.js" "// Arquivo principal do servidor"
  (Estrutura.consDir "config"
    (Estrutura.consFile "database.js" "// Configuração do SQLite" Estrutura.nil)
  (Estrutura.consDir "routes"
    (Estrutura.consFile "auth.js" "// Rotas de autenticação"
    (Estrutura.consFile "games.js" "// Rotas de gerenciamento de jogos"
    (Estrutura.consFile "users.js" "// Rotas de gerenciamento de usuários" Estrutura.nil)))
  (Estrutura.consDir "services"
    (Estrutura.consFile "wikipediaService.js" "// Integração com a API da Wikipédia"
      Estrutura.nil)
  (Estrutura.consDir "models"
    (Estrutura.consFile "User.js" "// Modelo de usuário"
    (Estrutura.consFile "GameSession.js" "// Modelo de sessão de jogo"
    (Estrutura.consFile "PathHistory.js" "// Modelo de histórico de percurso" Estrutura.nil)))
  (Estrutura.consDir "utils"
    (Estrutura.consFile "auth.js" "// Funções de autenticação"
    (Estrutura.consFile "gameLogic.js" "// Lógica do jogo" Estrutura.nil))
  Estrutura.nil))))))

/-- The base path of the script, `"./"`: the process working directory. -/
def diretorio_base : Path := []

/-- The success line the script prints, the f-string interpolated at `diretorio_base`. -/
def mensagem_sucesso : String := "Estrutura do projeto \x27./\x27 criada com sucesso!"

/-- The whole script: `os.makedirs(diretorio_base, exist_ok=True)`, then
`criar_estrutura(diretorio_base, estrutura_projeto)`, then — only when the walk did not
raise — the success print. The second component is standard output as a list of lines. -/
def script (fs : FS) : Except FS FS × List String :=
  match mkdirs fs diretorio_base with
  | Except.error _ => (Except.error fs, [])
  | Except.ok fs1 =>
    match criar_estrutura diretorio_base estrutura_projeto fs1 with
    | Except.error fs2 => (Except.error fs2, [])
    | Except.ok fs2 => (Except.ok fs2, [mensagem_sucesso])

/-- The filesystem the script produces from an empty working directory, newest binding
first (the association list grows by prepending). -/
def fsProjetoFinal : FS :=
  [ (["utils", "gameLogic.js"], Entry.file "// Lógica do jogo"),
    (["utils", "auth.js"], Entry.file "// Funções de autenticação"),
    (["utils"], Entry.dir),
    (["models", "PathHistory.js"], Entry.file "// Modelo de histórico de percurso"),
    (["models", "GameSession.js"], Entry.file "// Modelo de sessão de jogo"),
    (["models", "User.js"], Entry.file "// Modelo de usuário"),
    (["models"], Entry.dir),
    (["services", "wikipediaService.js"], Entry.file "// Integração com a API da Wikipédia"),
    (["services"], Entry.dir),
    (["routes", "users.js"], Entry.file "// Rotas de gerenciamento de usuários"),
    (["routes", "games.js"], Entry.file "// Rotas de gerenciamento de jogos"),
    (["routes", "auth.js"], Entry.file "// Rotas de autenticação"),
    (["routes"], Entry.dir),
    (["config", "database.js"], Entry.file "// Configuração do SQLite"),
    (["config"], Entry.dir),
    (["server.js"], Entry.file "// Arquivo principal do servidor"),
    (["package.json"], Entry.file "") ]

/-- The entries the specification lists, in its order: 5 directories and 12 files. -/
def entradasEsperadas : FS :=
  [ (["package.json"], Entry.file ""),
    (["server.js"], Entry.file "// Arquivo principal do servidor"),
    (["config"], Entry.dir),
    (["config", "database.js"], Entry.file "// Configuração do SQLite"),
    (["routes"], Entry.dir),
    (["routes", "auth.js"], Entry.file "// Rotas de autenticação"),
    (["routes", "games.js"], Entry.file "// Rotas de gerenciamento de jogos"),
    (["routes", "users.js"], Entry.file "// Rotas de gerenciamento de usuários"),
    (["services"], Entry.dir),
    (["services", "wikipediaService.js"], Entry.file "// Integração com a API da Wikipédia"),
    (["models"], Entry.dir),
    (["models", "User.js"], Entry.file "// Modelo de usuário"),
    (["models", "GameSession.js"], Entry.file "// Modelo de sessão de jogo"),
    (["models", "PathHistory.js"], Entry.file "// Modelo de histórico de percurso"),
    (["utils"], Entry.dir),
    (["utils", "auth.js"], Entry.file "// Funções de autenticação"),
    (["utils", "gameLogic.js"], Entry.file "// Lógica do jogo") ]

/-- Observable equality of filesystem states: the same lookup at every path. -/
def FSeq (a b : FS) : Prop := ∀ p : Path, FS.lookup a p = FS.lookup b p

/-- Lifting of `FSeq` to results of a primitive operation. -/
def ExcUnitEq : Except Unit FS → Except Unit FS → Prop
  | Except.ok a, Except.ok b => FSeq a b
  | Except.error _, Except.error _ => True
  | _, _ => False

/-- Lifting of `FSeq` to results of the walk, on the success and the error payload alike. -/
def ExcFSEq : Except FS FS → Except FS FS → Prop
  | Except.ok a, Except.ok b => FSeq a b
  | Except.error a, Except.error b => FSeq a b
  | _, _ => False

/-- The UTF-8 encoding of a Unicode code point, per the standard byte layout. -/
def utf8Nat (n : Nat) : List Nat :=
  if n < 128 then [n]
  else if n < 2048 then [192 + n / 64, 128 + n % 64]
  else if n < 65536 then [224 + n / 4096, 128 + n / 64 % 64, 128 + n % 64]
  else [240 + n / 262144, 128 + n / 4096 % 64, 128 + n / 64 % 64, 128 + n % 64]

/-- The UTF-8 bytes of a string. -/
def utf8Bytes (s : String) : List Nat :=
  List.flatten (s.toList.map (fun c => utf8Nat c.toNat))

/-- Modelled from the runtime semantics of the source's write call: `open(caminho, "w")`
passes no `encoding` argument, so the codec is `locale.getpreferredencoding(False)` — a
property of the host environment, here a parameter. The bytes `arquivo.write(conteudo)`
leaves in the file are that codec's encoding of the string (`none`: the codec raises). -/
def writtenBytes (preferido : String → Option (List Nat)) (conteudo : String) :
    Option (List Nat) := preferido conteudo

/-- The UTF-8 codec, which encodes every string. -/
def utf8Codec (s : String) : Option (List Nat) := some (utf8Bytes s)

/-- The Latin-1 codec: one byte per code point below 256, raising otherwise. -/
def latin1Codec (s : String) : Option (List Nat) :=
  if s.toList.all (fun c => decide (c.toNat < 256)) then
    some (s.toList.map (fun c => c.toNat))
  else none

/-- The state for the file-handle model: the filesystem plus the currently open handles. -/
structure WState where
  fs : FS
  abertos : List Path
deriving DecidableEq

/-- The with-statement `with open(caminho, "w") as arquivo:` of the source: when the open
succeeds the handle is acquired, the body runs, and the implicit `__exit__` releases the
handle on the normal exit and on the error exit alike; a failed open acquires nothing. -/
def withOpen (caminho : Path) (corpo : WState → Except WState WState) (s : WState) :
    Except WState WState :=
  if caminho = [] ∨ FS.lookup s.fs caminho = some Entry.dir ∨
      FS.isDir s.fs caminho.dropLast = false then Except.error s
  else
    match corpo (WState.mk s.fs (caminho :: s.abertos)) with
    | Except.ok s2 => Except.ok (WState.mk s2.fs (s2.abertos.erase caminho))
    | Except.error s2 => Except.error (WState.mk s2.fs (s2.abertos.erase caminho))

/-- The file-write step of the walk under the handle model; `escreveOk` injects a possible
failure of the body's `arquivo.write(conteudo)` call (for example a full disk). -/
def writeStep (escreveOk : Bool) (caminho : Path) (conteudo : String) (s : WState) :
    Except WState WState :=
  withOpen caminho
    (fun t =>
      if escreveOk then
        Except.ok (WState.mk (FS.set t.fs caminho (Entry.file conteudo)) t.abertos)
      else Except.error t) s

/-- The state a step ends in, on either exit path. -/
def resState : Except WState WState → WState
  | Except.ok s => s
  | Except.error s => s

/-- A small concrete tree: a file, then a directory with one empty file (spec §8's scenario,
relocated to the working directory so that the base directory exists). -/
def arvoreExemplo : Estrutura :=
  Estrutura.consFile "a.txt" "hello"
    (Estrutura.consDir "sub" (Estrutura.consFile "b.txt" "" Estrutura.nil) Estrutura.nil)

/-- The filesystem `arvoreExemplo` produces from an empty working directory. -/
def fsExemploFinal : FS :=
  [ (["sub", "b.txt"], Entry.file ""), (["sub"], Entry.dir),
    (["a.txt"], Entry.file "hello") ]

/-- A tree whose second node collides with an existing file, to exercise the error path. -/
def arvoreFalha : Estrutura :=
  Estrutura.consFile "a" "x" (Estrutura.consDir "b" Estrutura.nil Estrutura.nil)

/-- A one-file tree used to exercise the destructive overwrite. -/
def arvoreSobrescreve : Estrutura := Estrutura.consFile "a" "new" Estrutura.nil

/-! Basic lemmas about the filesystem model. -/

theorem lookup_set (fs : FS) (p q : Path) (e : Entry) :
    FS.lookup (FS.set fs p e) q = if p = q then some e else FS.lookup fs q := rfl

theorem isDir_iff {fs : FS} {p : Path} :
    FS.isDir fs p = true ↔ (p = [] ∨ FS.lookup fs p = some Entry.dir) := by
  simp [FS.isDir, List.isEmpty_iff]

/-- A successful `mkdirsAux` changes the filesystem only by turning absent paths into
directories. -/
theorem mkdirsAux_lookup {segs : List String} :
    ∀ {fs fs' : FS} {done : Path}, mkdirsAux fs done segs = Except.ok fs' → ∀ q : Path,
      FS.lookup fs' q = FS.lookup fs q ∨
        (FS.lookup fs q = none ∧ FS.lookup fs' q = some Entry.dir) := by
  induction segs with
  | nil =>
    intro fs fs' done h q
    simp only [mkdirsAux, Except.ok.injEq] at h
    subst h
    exact Or.inl rfl
  | cons seg resto ih =>
    intro fs fs' done h q
    cases hm : FS.lookup fs (done ++ [seg]) with
    | none =>
      rw [mkdirsAux, hm] at h
      rcases ih h q with h1 | h1
      · rw [lookup_set] at h1
        by_cases hq : done ++ [seg] = q
        · subst hq
          rw [if_pos rfl] at h1
          exact Or.inr ⟨hm, h1⟩
        · rw [if_neg hq] at h1
          exact Or.inl h1
      · rw [lookup_set] at h1
        by_cases hq : done ++ [seg] = q
        · rw [if_pos hq] at h1
          exact absurd h1.1 (by simp)
        · rw [if_neg hq] at h1
          exact Or.inr h1
    | some e =>
      cases e with
      | dir =>
        rw [mkdirsAux, hm] at h
        exact ih h q
      | file c =>
        rw [mkdirsAux, hm] at h
        cases h

theorem mkdirsAux_dir_stable {segs : List String} {fs fs' : FS} {done : Path}
    (h : mkdirsAux fs done segs = Except.ok fs') {q : Path}
    (hq : FS.lookup fs q = some Entry.dir) : FS.lookup fs' q = some Entry.dir := by
  rcases mkdirsAux_lookup h q with h1 | h1
  · rw [h1, hq]
  · rw [h1.1] at hq
    cases hq

theorem mkdirsAux_file_stable {segs : List String} {fs fs' : FS} {done : Path}
    (h : mkdirsAux fs done segs = Except.ok fs') {q : Path} {c : String}
    (hq : FS.lookup fs q = some (Entry.file c)) : FS.lookup fs' q = some (Entry.file c) := by
  rcases mkdirsAux_lookup h q with h1 | h1
  · rw [h1, hq]
  · rw [h1.1] at hq
    cases hq

/-- After a successful `mkdirsAux`, every nonempty stretch of the remaining segments is a
directory below `done`. -/
theorem mkdirsAux_chain {segs : List String} :
    ∀ {fs fs' : FS} {done : Path}, mkdirsAux fs done segs = Except.ok fs' →
      ∀ l : List String, l ≠ [] → l <+: segs →
        FS.lookup fs' (done ++ l) = some Entry.dir := by
  induction segs with
  | nil =>
    intro fs fs' done h l hne hp
    rw [List.prefix_nil] at hp
    exact absurd hp hne
  | cons seg resto ih =>
    intro fs fs' done h l hne hp
    cases l with
    | nil => exact absurd rfl hne
    | cons x l2 =>
      obtain ⟨rfl, hp2⟩ := List.cons_prefix_cons.mp hp
      cases hm : FS.lookup fs (done ++ [x]) with
      | none =>
        rw [mkdirsAux, hm] at h
        cases l2 with
        | nil =>
          exact mkdirsAux_dir_stable h (by rw [lookup_set, if_pos rfl])
        | cons y l3 =>
          have h2 := ih h (y :: l3) (by simp) hp2
          simpa [List.append_assoc] using h2
      | some e =>
        cases e with
        | dir =>
          rw [mkdirsAux, hm] at h
          cases l2 with
          | nil => exact mkdirsAux_dir_stable h hm
          | cons y l3 =>
            have h2 := ih h (y :: l3) (by simp) hp2
            simpa [List.append_assoc] using h2
        | file c =>
          rw [mkdirsAux, hm] at h
          cases h

/-- When every nonempty stretch of the segments is already a directory, `mkdirsAux` is a
no-op. -/
theorem mkdirsAux_noop {segs : List String} :
    ∀ {fs : FS} {done : Path},
      (∀ l : List String, l ≠ [] → l <+: segs →
        FS.lookup fs (done ++ l) = some Entry.dir) →
      mkdirsAux fs done segs = Except.ok fs := by
  induction segs with
  | nil => intro fs done _; rfl
  | cons seg resto ih =>
    intro fs done h
    have h1 : FS.lookup fs (done ++ [seg]) = some Entry.dir :=
      h [seg] (by simp) ⟨resto, rfl⟩
    rw [mkdirsAux, h1]
    apply ih
    intro l hne hp
    have h2 := h (seg :: l) (by simp) (List.cons_prefix_cons.mpr ⟨rfl, hp⟩)
    simpa [List.append_assoc] using h2

/-! Lemmas about the file branch. -/

theorem writeFile_ok {fs fs' : FS} {p : Path} {c : String}
    (h : writeFile fs p c = Except.ok fs') :
    fs' = FS.set fs p (Entry.file c) ∧ p ≠ [] ∧ FS.isDir fs p.dropLast = true ∧
      FS.lookup fs p ≠ some Entry.dir := by
  unfold writeFile at h
  split_ifs at h with h1 h2 h3
  cases h
  exact ⟨rfl, h1, h3, h2⟩

theorem writeFile_ok_intro {fs : FS} {p : Path} {c : String} (h1 : p ≠ [])
    (h2 : FS.lookup fs p ≠ some Entry.dir) (h3 : FS.isDir fs p.dropLast = true) :
    writeFile fs p c = Except.ok (FS.set fs p (Entry.file c)) := by
  unfold writeFile
  rw [if_neg h1, if_neg h2, if_pos h3]

theorem writeFile_error_of_parent {fs : FS} {p : Path} {c : String}
    (h : FS.isDir fs p.dropLast = false) : writeFile fs p c = Except.error () := by
  unfold writeFile
  split_ifs with h1 h2 h3
  · rfl
  · rfl
  · rw [h3] at h
    cases h
  · rfl

/-! Extraction lemmas for well-formedness. -/

theorem wf_consFile {n c : String} {r : Estrutura} (h : wf (Estrutura.consFile n c r) = true) :
    n ∉ nomes r ∧ wf r = true := by
  simpa [wf] using h

theorem wf_consDir {n : String} {f r : Estrutura} (h : wf (Estrutura.consDir n f r) = true) :
    n ∉ nomes r ∧ wf f = true ∧ wf r = true := by
  simpa [wf] using h

/-- Every File-node target path extends the base with a sibling name of the level. -/
theorem fileTargets_shape (est : Estrutura) :
    ∀ (base p : Path) (c : String), (p, c) ∈ fileTargets base est →
      ∃ (n : String) (t : List String), p = base ++ n :: t ∧ n ∈ nomes est := by
  induction est with
  | nil => intro base p c h; simp [fileTargets] at h
  | consFile nome cc resto ih =>
    intro base p c h
    simp only [fileTargets, List.mem_cons] at h
    rcases h with h | h
    · obtain ⟨rfl, rfl⟩ := Prod.mk.injEq .. ▸ h
      exact ⟨nome, [], rfl, by simp [nomes]⟩
    · obtain ⟨n, t, rfl, hn⟩ := ih base p c h
      exact ⟨n, t, rfl, by simp [nomes, hn]⟩
  | consDir nome filhos resto ih1 ih2 =>
    intro base p c h
    simp only [fileTargets, List.mem_append] at h
    rcases h with h | h
    · obtain ⟨n, t, rfl, _⟩ := ih1 (base ++ [nome]) p c h
      exact ⟨nome, n :: t, by simp, by simp [nomes]⟩
    · obtain ⟨n, t, rfl, hn⟩ := ih2 base p c h
      exact ⟨n, t, rfl, by simp [nomes, hn]⟩

/-- A path that starts with a name fresh for the level is not a File-node target of it. -/
theorem fresh_not_fileTarget {base : Path} {nome : String} {est : Estrutura}
    (hfresh : nome ∉ nomes est) (t : List String) :
    (base ++ nome :: t) ∉ List.map Prod.fst (fileTargets base est) := by
  intro hmem
  obtain ⟨⟨p, c⟩, hpc, hp⟩ := List.mem_map.mp hmem
  obtain ⟨n, t2, heq, hn⟩ := fileTargets_shape est base p c hpc
  rw [heq] at hp
  have h2 : (nome :: t : List String) = n :: t2 := List.append_cancel_left hp.symm
  cases h2
  exact hfresh hn

/-! Stability of entries through a successful walk: directories are never removed, and files
are only touched at File-node target paths. -/

theorem criar_dir_stable (est : Estrutura) :
    ∀ (base : Path) (fs fs' : FS), criar_estrutura base est fs = Except.ok fs' →
      ∀ q : Path, FS.lookup fs q = some Entry.dir → FS.lookup fs' q = some Entry.dir := by
  induction est with
  | nil =>
    intro base fs fs' h q hq
    cases h
    exact hq
  | consFile nome c resto ih =>
    intro base fs fs' h q hq
    rw [criar_estrutura] at h
    cases hw : writeFile fs (base ++ [nome]) c with
    | error e => rw [hw] at h; cases h
    | ok fs1 =>
      rw [hw] at h
      obtain ⟨rfl, -, -, hnd⟩ := writeFile_ok hw
      apply ih base _ _ h
      rw [lookup_set]
      by_cases hpq : base ++ [nome] = q
      · subst hpq
        exact absurd hq hnd
      · rw [if_neg hpq]
        exact hq
  | consDir nome filhos resto ih1 ih2 =>
    intro base fs fs' h q hq
    rw [criar_estrutura] at h
    cases hm : mkdirs fs (base ++ [nome]) with
    | error e => simp only [hm] at h; cases h
    | ok fs1 =>
      simp only [hm] at h
      cases hc : criar_estrutura (base ++ [nome]) filhos fs1 with
      | error fs2 => simp only [hc] at h; cases h
      | ok fs2 =>
        simp only [hc] at h
        exact ih2 base _ _ h q (ih1 _ _ _ hc q (mkdirsAux_dir_stable hm hq))

theorem criar_isDir_stable {est : Estrutura} {base : Path} {fs fs' : FS}
    (h : criar_estrutura base est fs = Except.ok fs') {q : Path}
    (hq : FS.isDir fs q = true) : FS.isDir fs' q = true := by
  rcases isDir_iff.mp hq with h1 | h1
  · exact isDir_iff.mpr (Or.inl h1)
  · exact isDir_iff.mpr (Or.inr (criar_dir_stable est base fs fs' h q h1))

theorem criar_file_stable (est : Estrutura) :
    ∀ (base : Path) (fs fs' : FS), criar_estrutura base est fs = Except.ok fs' →
      ∀ (q : Path) (c : String), FS.lookup fs q = some (Entry.file c) →
        q ∉ List.map Prod.fst (fileTargets base est) →
        FS.lookup fs' q = some (Entry.file c) := by
  induction est with
  | nil =>
    intro base fs fs' h q c hq _
    cases h
    exact hq
  | consFile nome cc resto ih =>
    intro base fs fs' h q c hq hnot
    rw [criar_estrutura] at h
    cases hw : writeFile fs (base ++ [nome]) cc with
    | error e => rw [hw] at h; cases h
    | ok fs1 =>
      rw [hw] at h
      obtain ⟨rfl, -, -, -⟩ := writeFile_ok hw
      simp only [fileTargets, List.map_cons, List.mem_cons] at hnot
      push_neg at hnot
      apply ih base _ _ h q c _ hnot.2
      rw [lookup_set, if_neg (fun he => hnot.1 he.symm)]
      exact hq
  | consDir nome filhos resto ih1 ih2 =>
    intro base fs fs' h q c hq hnot
    rw [criar_estrutura] at h
    cases hm : mkdirs fs (base ++ [nome]) with
    | error e => simp only [hm] at h; cases h
    | ok fs1 =>
      simp only [hm] at h
      cases hc : criar_estrutura (base ++ [nome]) filhos fs1 with
      | error fs2 => simp only [hc] at h; cases h
      | ok fs2 =>
        simp only [hc] at h
        simp only [fileTargets, List.map_append, List.mem_append] at hnot
        push_neg at hnot
        exact ih2 base _ _ h q c
          (ih1 _ _ _ hc q c (mkdirsAux_file_stable hm hq) hnot.1) hnot.2

/-- Realization is carried forward by any transition that preserves directories everywhere
and preserves files at the tree's File-node target paths. -/
theorem Realized_mono (est : Estrutura) :
    ∀ (base : Path) (fs fs' : FS), Realized fs base est →
      (∀ q : Path, FS.lookup fs q = some Entry.dir → FS.lookup fs' q = some Entry.dir) →
      (∀ (q : Path) (c : String), FS.lookup fs q = some (Entry.file c) →
        q ∈ List.map Prod.fst (fileTargets base est) →
        FS.lookup fs' q = some (Entry.file c)) →
      Realized fs' base est := by
  induction est with
  | nil => intro base fs fs' _ _ _; trivial
  | consFile nome c resto ih =>
    intro base fs fs' hR hdir hfile
    refine ⟨hfile _ _ hR.1 (by simp [fileTargets]), ?_⟩
    exact ih base fs fs' hR.2 hdir
      (fun q cc hq hmem => hfile q cc hq (by simp [fileTargets, hmem]))
  | consDir nome filhos resto ih1 ih2 =>
    intro base fs fs' hR hdir hfile
    refine ⟨hdir _ hR.1, ?_, ?_⟩
    · exact ih1 (base ++ [nome]) fs fs' hR.2.1 hdir
        (fun q cc hq hmem => hfile q cc hq (by simp [fileTargets, hmem]))
    · exact ih2 base fs fs' hR.2.2 hdir
        (fun q cc hq hmem => hfile q cc hq (by simp [fileTargets, hmem]))

/-- Core correctness of the walk: a successful run materializes every node of a well-formed
tree at its joined path. -/
theorem criar_realizes (est : Estrutura) :
    ∀ (base : Path) (fs fs' : FS), wf est = true →
      criar_estrutura base est fs = Except.ok fs' → Realized fs' base est := by
  induction est with
  | nil => intro base fs fs' _ _; trivial
  | consFile nome c resto ih =>
    intro base fs fs' hwf h
    obtain ⟨hfresh, hwfr⟩ := wf_consFile hwf
    rw [criar_estrutura] at h
    cases hw : writeFile fs (base ++ [nome]) c with
    | error e => rw [hw] at h; cases h
    | ok fs1 =>
      rw [hw] at h
      obtain ⟨rfl, -, -, -⟩ := writeFile_ok hw
      refine ⟨?_, ih base _ _ hwfr h⟩
      exact criar_file_stable resto base _ _ h (base ++ [nome]) c
        (by rw [lookup_set, if_pos rfl]) (fresh_not_fileTarget hfresh [])
  | consDir nome filhos resto ih1 ih2 =>
    intro base fs fs' hwf h
    obtain ⟨hfresh, hwff, hwfr⟩ := wf_consDir hwf
    rw [criar_estrutura] at h
    cases hm : mkdirs fs (base ++ [nome]) with
    | error e => simp only [hm] at h; cases h
    | ok fs1 =>
      simp only [hm] at h
      cases hc : criar_estrutura (base ++ [nome]) filhos fs1 with
      | error fs2 => simp only [hc] at h; cases h
      | ok fs2 =>
        simp only [hc] at h
        have hdir1 : FS.lookup fs1 (base ++ [nome]) = some Entry.dir :=
          mkdirsAux_chain hm (base ++ [nome]) (by simp) (List.prefix_refl _)
        have hdir2 := criar_dir_stable filhos (base ++ [nome]) fs1 fs2 hc _ hdir1
        refine ⟨criar_dir_stable resto base fs2 fs' h _ hdir2, ?_, ih2 base _ _ hwfr h⟩
        have hRf := ih1 (base ++ [nome]) fs1 fs2 hwff hc
        apply Realized_mono filhos (base ++ [nome]) fs2 fs' hRf
          (criar_dir_stable resto base fs2 fs' h)
        intro q cc hq hmem
        obtain ⟨⟨p2, c2⟩, hpc, hp2⟩ := List.mem_map.mp hmem
        obtain ⟨n, t, heq, -⟩ := fileTargets_shape filhos (base ++ [nome]) p2 c2 hpc
        apply criar_file_stable resto base fs2 fs' h q cc hq
        rw [← hp2, heq]
        have : base ++ [nome] ++ n :: t = base ++ nome :: (n :: t) := by
          simp [List.append_assoc]
        rw [this]
        exact fresh_not_fileTarget hfresh (n :: t)

/-! The ancestral-directory bookkeeping a successful walk leaves behind. -/

theorem ChainOk_mono (est : Estrutura) :
    ∀ (base : Path) (fs fs' : FS), ChainOk fs base est →
      (∀ q : Path, FS.lookup fs q = some Entry.dir → FS.lookup fs' q = some Entry.dir) →
      ChainOk fs' base est := by
  induction est with
  | nil => intro base fs fs' _ _; trivial
  | consFile nome c resto ih =>
    intro base fs fs' hC hdir
    refine ⟨?_, ih base fs fs' hC.2 hdir⟩
    rcases isDir_iff.mp hC.1 with h1 | h1
    · exact isDir_iff.mpr (Or.inl h1)
    · exact isDir_iff.mpr (Or.inr (hdir _ h1))
  | consDir nome filhos resto ih1 ih2 =>
    intro base fs fs' hC hdir
    exact ⟨fun q hne hp => hdir q (hC.1 q hne hp),
      ih1 (base ++ [nome]) fs fs' hC.2.1 hdir, ih2 base fs fs' hC.2.2 hdir⟩

theorem criar_chainOk (est : Estrutura) :
    ∀ (base : Path) (fs fs' : FS), criar_estrutura base est fs = Except.ok fs' →
      ChainOk fs' base est := by
  induction est with
  | nil => intro base fs fs' _; trivial
  | consFile nome c resto ih =>
    intro base fs fs' h
    rw [criar_estrutura] at h
    cases hw : writeFile fs (base ++ [nome]) c with
    | error e => rw [hw] at h; cases h
    | ok fs1 =>
      rw [hw] at h
      obtain ⟨rfl, -, hpar, -⟩ := writeFile_ok hw
      rw [List.dropLast_concat] at hpar
      refine ⟨?_, ih base _ _ h⟩
      apply criar_isDir_stable h
      rcases isDir_iff.mp hpar with h1 | h1
      · exact isDir_iff.mpr (Or.inl h1)
      · refine isDir_iff.mpr (Or.inr ?_)
        rw [lookup_set]
        rw [if_neg ?_]
        · exact h1
        · intro he
          have := congrArg List.length he
          simp at this
  | consDir nome filhos resto ih1 ih2 =>
    intro base fs fs' h
    rw [criar_estrutura] at h
    cases hm : mkdirs fs (base ++ [nome]) with
    | error e => simp only [hm] at h; cases h
    | ok fs1 =>
      simp only [hm] at h
      cases hc : criar_estrutura (base ++ [nome]) filhos fs1 with
      | error fs2 => simp only [hc] at h; cases h
      | ok fs2 =>
        simp only [hc] at h
        refine ⟨?_, ?_, ih2 base _ _ h⟩
        · intro q hne hp
          have h1 : FS.lookup fs1 q = some Entry.dir := by
            have := mkdirsAux_chain hm q hne
            simpa using this hp
          exact criar_dir_stable resto base fs2 fs' h q
            (criar_dir_stable filhos (base ++ [nome]) fs1 fs2 hc q h1)
        · exact ChainOk_mono filhos (base ++ [nome]) fs2 fs'
            (ih1 (base ++ [nome]) fs1 fs2 hc) (criar_dir_stable resto base fs2 fs' h)

/-! Congruence: every operation of the walk depends on the filesystem only through
`FS.lookup`, so observably equal states run observably equally. -/

theorem set_congr {a b : FS} (h : FSeq a b) (p : Path) (e : Entry) :
    FSeq (FS.set a p e) (FS.set b p e) := by
  intro q
  rw [lookup_set, lookup_set, h q]

theorem isDir_congr {a b : FS} (h : FSeq a b) (p : Path) : FS.isDir a p = FS.isDir b p := by
  simp [FS.isDir, h p]

theorem mkdirsAux_congr {segs : List String} :
    ∀ {a b : FS} {done : Path}, FSeq a b →
      ExcUnitEq (mkdirsAux a done segs) (mkdirsAux b done segs) := by
  induction segs with
  | nil => intro a b done h; exact h
  | cons seg resto ih =>
    intro a b done h
    have hl : FS.lookup a (done ++ [seg]) = FS.lookup b (done ++ [seg]) := h _
    cases hm : FS.lookup b (done ++ [seg]) with
    | none =>
      rw [hm] at hl
      rw [mkdirsAux, mkdirsAux, hm, hl]
      exact ih (set_congr h _ _)
    | some e =>
      rw [hm] at hl
      cases e with
      | dir =>
        rw [mkdirsAux, mkdirsAux, hm, hl]
        exact ih h
      | file c =>
        rw [mkdirsAux, mkdirsAux, hm, hl]
        trivial

theorem writeFile_congr {a b : FS} (h : FSeq a b) (p : Path) (c : String) :
    ExcUnitEq (writeFile a p c) (writeFile b p c) := by
  unfold writeFile
  rw [h p, isDir_congr h]
  split_ifs with h1 h2 h3
  · trivial
  · trivial
  · exact set_congr h _ _
  · trivial

theorem criar_congr (est : Estrutura) :
    ∀ (base : Path) (a b : FS), FSeq a b →
      ExcFSEq (criar_estrutura base est a) (criar_estrutura base est b) := by
  induction est with
  | nil => intro base a b h; exact h
  | consFile nome c resto ih =>
    intro base a b h
    have hw := writeFile_congr h (base ++ [nome]) c
    rw [criar_estrutura, criar_estrutura]
    cases hwa : writeFile a (base ++ [nome]) c with
    | error e =>
      cases hwb : writeFile b (base ++ [nome]) c with
      | error e2 => exact h
      | ok fs1 => rw [hwa, hwb] at hw; cases hw
    | ok fs1 =>
      cases hwb : writeFile b (base ++ [nome]) c with
      | error e2 => rw [hwa, hwb] at hw; cases hw
      | ok fs2 =>
        rw [hwa, hwb] at hw
        exact ih base fs1 fs2 hw
  | consDir nome filhos resto ih1 ih2 =>
    intro base a b h
    have hm := @mkdirsAux_congr (base ++ [nome]) a b [] h
    rw [criar_estrutura, criar_estrutura]
    cases hma : mkdirs a (base ++ [nome]) with
    | error e =>
      cases hmb : mkdirs b (base ++ [nome]) with
      | error e2 => exact h
      | ok fs1 =>
        rw [show mkdirsAux a [] (base ++ [nome]) = Except.error e from hma,
          show mkdirsAux b [] (base ++ [nome]) = Except.ok fs1 from hmb] at hm
        cases hm
    | ok fs1 =>
      cases hmb : mkdirs b (base ++ [nome]) with
      | error e2 =>
        rw [show mkdirsAux a [] (base ++ [nome]) = Except.ok fs1 from hma,
          show mkdirsAux b [] (base ++ [nome]) = Except.error e2 from hmb] at hm
        cases hm
      | ok fs2 =>
        rw [show mkdirsAux a [] (base ++ [nome]) = Except.ok fs1 from hma,
          show mkdirsAux b [] (base ++ [nome]) = Except.ok fs2 from hmb] at hm
        have hinner := ih1 (base ++ [nome]) fs1 fs2 hm
        show ExcFSEq
          (match criar_estrutura (base ++ [nome]) filhos fs1 with
            | Except.error fs3 => Except.error fs3
            | Except.ok fs3 => criar_estrutura base resto fs3)
          (match criar_estrutura (base ++ [nome]) filhos fs2 with
            | Except.error fs3 => Except.error fs3
            | Except.ok fs3 => criar_estrutura base resto fs3)
        cases hca : criar_estrutura (base ++ [nome]) filhos fs1 with
        | error fsa =>
          cases hcb : criar_estrutura (base ++ [nome]) filhos fs2 with
          | error fsb =>
            rw [hca, hcb] at hinner
            exact hinner
          | ok fsb => rw [hca, hcb] at hinner; cases hinner
        | ok fsa =>
          cases hcb : criar_estrutura (base ++ [nome]) filhos fs2 with
          | error fsb => rw [hca, hcb] at hinner; cases hinner
          | ok fsb =>
            rw [hca, hcb] at hinner
            exact ih2 base fsa fsb hinner

/-- Rebuilding over a state in which the tree is already fully materialized (with its
ancestral directories present) succeeds and changes nothing observable. -/
theorem criar_rebuild (est : Estrutura) :
    ∀ (base : Path) (fs : FS), Realized fs base est → ChainOk fs base est →
      ∃ fs2, criar_estrutura base est fs = Except.ok fs2 ∧ FSeq fs2 fs := by
  induction est with
  | nil => intro base fs _ _; exact ⟨fs, rfl, fun p => rfl⟩
  | consFile nome c resto ih =>
    intro base fs hR hC
    have hne : base ++ [nome] ≠ [] := by simp
    have hnd : FS.lookup fs (base ++ [nome]) ≠ some Entry.dir := by
      rw [hR.1]; simp
    have hpar : FS.isDir fs (base ++ [nome]).dropLast = true := by
      rw [List.dropLast_concat]; exact hC.1
    have hw := @writeFile_ok_intro fs (base ++ [nome]) c hne hnd hpar
    have hset : FSeq (FS.set fs (base ++ [nome]) (Entry.file c)) fs := by
      intro q
      rw [lookup_set]
      by_cases hq : base ++ [nome] = q
      · subst hq
        rw [if_pos rfl, hR.1]
      · rw [if_neg hq]
    obtain ⟨fs2, hrun, hfs2⟩ := ih base fs hR.2 hC.2
    have hcg := criar_congr resto base _ fs hset
    rw [hrun] at hcg
    cases hc2 : criar_estrutura base resto (FS.set fs (base ++ [nome]) (Entry.file c)) with
    | error fsb => rw [hc2] at hcg; cases hcg
    | ok fsb =>
      rw [hc2] at hcg
      refine ⟨fsb, ?_, fun p => (hcg p).trans (hfs2 p)⟩
      rw [criar_estrutura, hw]
      exact hc2
  | consDir nome filhos resto ih1 ih2 =>
    intro base fs hR hC
    have hnoop : mkdirs fs (base ++ [nome]) = Except.ok fs := by
      apply mkdirsAux_noop
      intro l hne hp
      simpa using hC.1 l hne hp
    obtain ⟨fsb, hrunb, hfsb⟩ := ih1 (base ++ [nome]) fs hR.2.1 hC.2.1
    obtain ⟨fs2, hrun2, hfs2⟩ := ih2 base fs hR.2.2 hC.2.2
    have hcg := criar_congr resto base fsb fs hfsb
    rw [hrun2] at hcg
    cases hc2 : criar_estrutura base resto fsb with
    | error fsc => rw [hc2] at hcg; cases hcg
    | ok fsc =>
      rw [hc2] at hcg
      refine ⟨fsc, ?_, fun p => (hcg p).trans (hfs2 p)⟩
      rw [criar_estrutura]
      simp only [hnoop, hrunb]
      exact hc2

/-! The walk as a linear sequence of primitive operations. -/

theorem runOps_append (l1 l2 : List Op) :
    ∀ fs : FS, runOps fs (l1 ++ l2) =
      match runOps fs l1 with
      | Except.error f => Except.error f
      | Except.ok f => runOps f l2 := by
  induction l1 with
  | nil => intro fs; rfl
  | cons op resto ih =>
    intro fs
    cases ha : applyOp fs op with
    | error e => simp [runOps, ha]
    | ok fs1 => simp [runOps, ha, ih fs1]

/-- The walk performs exactly the operations of its plan, in order. -/
theorem criar_eq_runPlan (est : Estrutura) :
    ∀ (base : Path) (fs : FS),
      criar_estrutura base est fs = runOps fs (plan base est) := by
  induction est with
  | nil => intro base fs; rfl
  | consFile nome c resto ih =>
    intro base fs
    rw [criar_estrutura, plan, runOps]
    cases hw : writeFile fs (base ++ [nome]) c with
    | error e => simp [applyOp, hw]
    | ok fs1 => simp [applyOp, hw, ih base fs1]
  | consDir nome filhos resto ih1 ih2 =>
    intro base fs
    rw [criar_estrutura, plan, runOps]
    cases hm : mkdirs fs (base ++ [nome]) with
    | error e => simp [applyOp, hm]
    | ok fs1 =>
      simp only [applyOp, hm]
      rw [runOps_append]
      rw [← ih1 (base ++ [nome]) fs1]
      cases hc : criar_estrutura (base ++ [nome]) filhos fs1 with
      | error fs2 => rfl
      | ok fs2 => exact ih2 base fs2

/-- A failed run of operations decomposes as: a successful prefix, whose final state is
exactly the error payload, then the failing operation; nothing beyond it was attempted. -/
theorem runOps_error_split (ops : List Op) :
    ∀ (fs fs' : FS), runOps fs ops = Except.error fs' →
      ∃ (pre : List Op) (op : Op) (post : List Op),
        ops = pre ++ op :: post ∧ runOps fs pre = Except.ok fs' ∧
          applyOp fs' op = Except.error () := by
  induction ops with
  | nil => intro fs fs' h; cases h
  | cons op resto ih =>
    intro fs fs' h
    rw [runOps] at h
    cases ha : applyOp fs op with
    | error e =>
      rw [ha] at h
      cases h
      cases e
      exact ⟨[], op, resto, rfl, rfl, ha⟩
    | ok fs1 =>
      rw [ha] at h
      obtain ⟨pre, op2, post, heq, hpre, herr⟩ := ih fs1 fs' h
      refine ⟨op :: pre, op2, post, by rw [heq, List.cons_append], ?_, herr⟩
      rw [runOps, ha]
      exact hpre

theorem plan_length (est : Estrutura) :
    ∀ base : Path, (plan base est).length = sizeE est := by
  induction est with
  | nil => intro base; rfl
  | consFile nome c resto ih =>
    intro base
    simp [plan, sizeE, ih base, Nat.add_comm]
  | consDir nome filhos resto ih1 ih2 =>
    intro base
    simp [plan, sizeE, ih1 (base ++ [nome]), ih2 base]
    omega

/-- Any fuel beyond the node count lets the fueled walk complete, with the same result as
the recursive walk. -/
theorem criarFuel_spec (est : Estrutura) :
    ∀ (n : Nat) (base : Path) (fs : FS), sizeE est < n →
      criarFuel n base est fs = some (criar_estrutura base est fs) := by
  induction est with
  | nil =>
    intro n base fs hn
    cases n with
    | zero => cases hn
    | succ m => rfl
  | consFile nome c resto ih =>
    intro n base fs hn
    cases n with
    | zero => cases hn
    | succ m =>
      rw [criarFuel, criar_estrutura]
      cases hw : writeFile fs (base ++ [nome]) c with
      | error e => rfl
      | ok fs1 =>
        apply ih m base fs1
        rw [sizeE] at hn
        omega
  | consDir nome filhos resto ih1 ih2 =>
    intro n base fs hn
    cases n with
    | zero => cases hn
    | succ m =>
      rw [criarFuel, criar_estrutura]
      cases hm : mkdirs fs (base ++ [nome]) with
      | error e => rfl
      | ok fs1 =>
        rw [sizeE] at hn
        show (match criarFuel m (base ++ [nome]) filhos fs1 with
            | none => none
            | some (Except.error fs2) => some (Except.error fs2)
            | some (Except.ok fs2) => criarFuel m base resto fs2) =
          some (match criar_estrutura (base ++ [nome]) filhos fs1 with
            | Except.error fs2 => Except.error fs2
            | Except.ok fs2 => criar_estrutura base resto fs2)
        rw [ih1 m (base ++ [nome]) fs1 (by omega)]
        cases hc : criar_estrutura (base ++ [nome]) filhos fs1 with
        | error fs2 => rfl
        | ok fs2 => exact ih2 m base fs2 (by omega)

/-- A materialized tree has each File node's content at its target path. -/
theorem Realized_lookup (est : Estrutura) :
    ∀ (base : Path) (fs : FS), Realized fs base est →
      ∀ (p : Path) (c : String), (p, c) ∈ fileTargets base est →
        FS.lookup fs p = some (Entry.file c) := by
  induction est with
  | nil => intro base fs _ p c h; simp [fileTargets] at h
  | consFile nome cc resto ih =>
    intro base fs hR p c h
    simp only [fileTargets, List.mem_cons] at h
    rcases h with h | h
    · obtain ⟨rfl, rfl⟩ := Prod.mk.injEq .. ▸ h
      exact hR.1
    · exact ih base fs hR.2 p c h
  | consDir nome filhos resto ih1 ih2 =>
    intro base fs hR p c h
    simp only [fileTargets, List.mem_append] at h
    rcases h with h | h
    · exact ih1 (base ++ [nome]) fs hR.2.1 p c h
    · exact ih2 base fs hR.2.2 p c h

/-! Supporting lemma tying the handle model to the plain file write. -/

theorem writeStep_fs (fs fs' : FS) (ab : List Path) (caminho : Path) (c : String)
    (h : writeFile fs caminho c = Except.ok fs') :
    writeStep true caminho c (WState.mk fs ab) = Except.ok (WState.mk fs' ab) := by
  obtain ⟨rfl, h1, h3, h2⟩ := writeFile_ok h
  rw [writeStep, withOpen]
  have hcond : ¬(caminho = [] ∨ FS.lookup fs caminho = some Entry.dir ∨
      FS.isDir fs caminho.dropLast = false) := by
    push_neg
    exact ⟨h1, h2, by simp [h3]⟩
  rw [if_neg hcond]
  simp [List.erase_cons_head]

/-! The claims. -/

/-- C1: if `criar_estrutura` completes without error on a base path, then every Directory
node of the (well-formed) tree is an existing directory at the path joining the base path
with the names on the node's path from the root, and every File node is an existing file at
its joined path whose content is exactly the node's string value. -/
theorem build_realizes_all_nodes (base : Path) (est : Estrutura) (fs fs' : FS)
    (hwf : wf est = true) (h : criar_estrutura base est fs = Except.ok fs') :
    Realized fs' base est :=
  criar_realizes est base fs fs' hwf h

theorem build_realizes_all_nodes_witness : Realized fsExemploFinal [] arvoreExemplo :=
  build_realizes_all_nodes [] arvoreExemplo [] fsExemploFinal (by decide) (by rfl)

/-- C2: running the script to completion from an empty working directory prints the success
line and produces exactly the entries the specification lists — 5 directories and 12 files,
each file with exactly its placeholder content — and nothing else. -/
theorem script_creates_exactly_the_listed_entries :
    script ([] : FS) = (Except.ok fsProjetoFinal, [mensagem_sucesso]) ∧
      List.Perm fsProjetoFinal entradasEsperadas :=
  ⟨rfl, by decide⟩

/-- C3: when the walk fails, the plan decomposes as a successful prefix — whose effects,
being exactly the error-payload state, remain in place with no rollback — followed by the
failing operation; no operation after it (descendants of the failed node and later siblings
alike) was attempted. -/
theorem build_error_is_first_failure (base : Path) (est : Estrutura) (fs fs' : FS)
    (h : criar_estrutura base est fs = Except.error fs') :
    ∃ (pre : List Op) (op : Op) (post : List Op),
      plan base est = pre ++ op :: post ∧
        runOps fs pre = Except.ok fs' ∧
        applyOp fs' op = Except.error () ∧
        criar_estrutura base est fs = runOps fs (plan base est) := by
  have he : runOps fs (plan base est) = Except.error fs' := by
    rw [← criar_eq_runPlan]
    exact h
  obtain ⟨pre, op, post, h1, h2, h3⟩ := runOps_error_split (plan base est) fs fs' he
  exact ⟨pre, op, post, h1, h2, h3, criar_eq_runPlan est base fs⟩

theorem build_error_is_first_failure_witness :
    ∃ (pre : List Op) (op : Op) (post : List Op),
      plan [] arvoreFalha = pre ++ op :: post ∧
        runOps [(["b"], Entry.file "z")] pre =
          Except.ok [(["a"], Entry.file "x"), (["b"], Entry.file "z")] ∧
        applyOp [(["a"], Entry.file "x"), (["b"], Entry.file "z")] op = Except.error () ∧
        criar_estrutura [] arvoreFalha [(["b"], Entry.file "z")] =
          runOps [(["b"], Entry.file "z")] (plan [] arvoreFalha) :=
  build_error_is_first_failure [] arvoreFalha [(["b"], Entry.file "z")]
    [(["a"], Entry.file "x"), (["b"], Entry.file "z")] (by rfl)

/-- C4: running the walk twice in succession over a well-formed tree leaves the filesystem
in the same observable end state as running it once — the second run succeeds, existing
directories are left alone, and every path looks the same after the second run. -/
theorem build_idempotent (base : Path) (est : Estrutura) (fs fs1 : FS)
    (hwf : wf est = true) (h : criar_estrutura base est fs = Except.ok fs1) :
    ∃ fs2, criar_estrutura base est fs1 = Except.ok fs2 ∧
      ∀ p : Path, FS.lookup fs2 p = FS.lookup fs1 p :=
  criar_rebuild est base fs1 (criar_realizes est base fs fs1 hwf h)
    (criar_chainOk est base fs fs1 h)

theorem build_idempotent_witness :
    ∃ fs2, criar_estrutura [] arvoreExemplo fsExemploFinal = Except.ok fs2 ∧
      ∀ p : Path, FS.lookup fs2 p = FS.lookup fsExemploFinal p :=
  build_idempotent [] arvoreExemplo [] fsExemploFinal (by decide) (by rfl)

/-- C5: a file already present at a File node's target path with different content is
unconditionally overwritten — after a successful run the content at the path is the tree's
value, not the prior one. -/
theorem build_overwrites_preexisting_file (base : Path) (est : Estrutura) (fs fs' : FS)
    (p : Path) (c c0 : String) (hwf : wf est = true)
    (hmem : (p, c) ∈ fileTargets base est)
    (hprev : FS.lookup fs p = some (Entry.file c0)) (hne : c0 ≠ c)
    (h : criar_estrutura base est fs = Except.ok fs') :
    FS.lookup fs' p = some (Entry.file c) ∧ FS.lookup fs' p ≠ some (Entry.file c0) := by
  have h1 := Realized_lookup est base fs' (criar_realizes est base fs fs' hwf h) p c hmem
  refine ⟨h1, ?_⟩
  rw [h1]
  simp only [ne_eq, Option.some.injEq, Entry.file.injEq]
  exact fun he => hne he.symm

theorem build_overwrites_preexisting_file_witness :
    FS.lookup [(["a"], Entry.file "new"), (["a"], Entry.file "old")] ["a"] =
        some (Entry.file "new") ∧
      FS.lookup [(["a"], Entry.file "new"), (["a"], Entry.file "old")] ["a"] ≠
        some (Entry.file "old") :=
  build_overwrites_preexisting_file [] arvoreSobrescreve [(["a"], Entry.file "old")]
    [(["a"], Entry.file "new"), (["a"], Entry.file "old")] ["a"] "new" "old"
    (by decide) (by decide) (by decide) (by decide) (by rfl)

/-- C6: the File branch never creates directories — when the target's parent directory is
absent the write fails, and a successful write adds no directory entry anywhere. -/
theorem file_branch_never_creates_directories (fs : FS) (p : Path) (c : String) :
    (FS.isDir fs p.dropLast = false → writeFile fs p c = Except.error ()) ∧
    (∀ (fs' : FS) (q : Path), writeFile fs p c = Except.ok fs' →
      FS.lookup fs' q = some Entry.dir → FS.lookup fs q = some Entry.dir) := by
  refine ⟨writeFile_error_of_parent, ?_⟩
  intro fs' q hw hq
  obtain ⟨rfl, -, -, -⟩ := writeFile_ok hw
  rw [lookup_set] at hq
  by_cases he : p = q
  · subst he
    rw [if_pos rfl] at hq
    exact absurd hq (by simp)
  · rwa [if_neg he] at hq

theorem file_branch_never_creates_directories_witness :
    writeFile ([] : FS) ["a", "b"] "x" = Except.error () :=
  (file_branch_never_creates_directories [] ["a", "b"] "x").1 (by decide)

/-- C7 counterexample: the write call passes no `encoding` argument, so the bytes reaching
the file are the preferred-locale codec's encoding of the node's string; under a Latin-1
locale the bytes for the tree's own `config/database.js` content differ from its UTF-8
encoding, refuting the claim that the bytes are always exactly UTF-8. -/
theorem written_bytes_depend_on_locale :
    (["config", "database.js"], "// Configuração do SQLite") ∈
        fileTargets diretorio_base estrutura_projeto ∧
      writtenBytes latin1Codec "// Configuração do SQLite" ≠
        writtenBytes utf8Codec "// Configuração do SQLite" :=
  ⟨by decide, by decide⟩

/-- C7 (amended): for every File node of a tree, when the platform's preferred encoding is
UTF-8 the bytes written are exactly the UTF-8 encoding of the node's string value. -/
theorem written_bytes_utf8_when_locale_utf8 (base : Path) (est : Estrutura) (p : Path)
    (c : String) (hmem : (p, c) ∈ fileTargets base est) :
    writtenBytes utf8Codec c = some (utf8Bytes c) := rfl

theorem written_bytes_utf8_when_locale_utf8_witness :
    writtenBytes utf8Codec "// Configuração do SQLite" =
      some (utf8Bytes "// Configuração do SQLite") :=
  written_bytes_utf8_when_locale_utf8 diretorio_base estrutura_projeto
    ["config", "database.js"] "// Configuração do SQLite" (by decide)

/-- C8: the success message is printed exactly when the whole walk completed without error;
in every run in which some operation errors, nothing is printed. -/
theorem success_message_iff_walk_ok (fs : FS) :
    ((∃ fs2, criar_estrutura diretorio_base estrutura_projeto fs = Except.ok fs2) →
      (script fs).2 = [mensagem_sucesso]) ∧
    (∀ fs2, criar_estrutura diretorio_base estrutura_projeto fs = Except.error fs2 →
      (script fs).2 = []) := by
  have hmk : mkdirs fs diretorio_base = Except.ok fs := rfl
  constructor
  · rintro ⟨fs2, h⟩
    simp [script, hmk, h]
  · intro fs2 h
    simp [script, hmk, h]

theorem success_message_iff_walk_ok_witness : (script ([] : FS)).2 = [mensagem_sucesso] :=
  (success_message_iff_walk_ok []).1 ⟨fsProjetoFinal, by rfl⟩

/-- C9: each file write acquires the handle scopedly and releases it on every exit path —
whether the open fails, the body's write fails, or everything succeeds, no handle remains
open after the step. -/
theorem write_step_releases_handle (escreveOk : Bool) (caminho : Path) (conteudo : String)
    (s : WState) :
    (resState (writeStep escreveOk caminho conteudo s)).abertos = s.abertos := by
  rw [writeStep, withOpen]
  split_ifs with h1 h2
  · rfl
  · exact List.erase_cons_head caminho s.abertos
  · exact List.erase_cons_head caminho s.abertos

/-- C10: the walk terminates on every finite tree — a fuel budget one beyond the node count
always suffices and reproduces the recursive walk — and it plans exactly one filesystem
operation per node. -/
theorem build_terminates (n : Nat) (base : Path) (est : Estrutura) (fs : FS)
    (h : sizeE est < n) :
    criarFuel n base est fs = some (criar_estrutura base est fs) ∧
      (plan base est).length = sizeE est :=
  ⟨criarFuel_spec est n base fs h, plan_length est base⟩

theorem build_terminates_witness :
    criarFuel 4 [] arvoreExemplo [] = some (criar_estrutura [] arvoreExemplo []) ∧
      (plan [] arvoreExemplo).length = sizeE arvoreExemplo :=
  build_terminates 4 [] arvoreExemplo [] (by decide)

end EstruturaPy
